import Mathlib

/-!
Shallow embedding of `src/garage/np/algos/cem.py` (Cross-Entropy Method).

Numeric values carried by the program (rewards, returns, parameter vectors,
fractions) are modelled as exact rationals `ℚ`; the square roots taken by
`np.std` / `np.sqrt` land in `ℝ`.  1-D numpy arrays are `List ℚ`; a batch of
parameter vectors (2-D array) is `List (List ℚ)`.
-/

/-- `np.mean(x)` over a 1-D array `x`, as exact rational arithmetic
(`x.sum / len(x)`; for the empty array this is `0/0 = 0`). -/
def npMean (x : List ℚ) : ℚ := x.sum / (x.length : ℚ)

/-- `np.var(x, ddof=d)`: mean squared deviation from the mean with divisor
`len(x) - d` (numpy's delta degrees of freedom). -/
def npVar (d : ℕ) (x : List ℚ) : ℚ :=
  (x.map fun v => (v - npMean x) ^ 2).sum / ((x.length - d : ℕ) : ℚ)

/-- `np.std(x, ddof=d) = sqrt(np.var(x, ddof=d))`. -/
noncomputable def npStd (d : ℕ) (x : List ℚ) : ℝ :=
  Real.sqrt ((npVar d x : ℚ) : ℝ)

/-- `_get_stderr_lb(x)` from `cem.py`:
`np.mean(x) - np.std(x, ddof=1 if len(x) > 1 else 0) / np.sqrt(len(x))`. -/
noncomputable def _get_stderr_lb (x : List ℚ) : ℝ :=
  (npMean x : ℝ) - npStd (if 1 < x.length then 1 else 0) x / Real.sqrt (x.length : ℝ)

lemma npMean_singleton (a : ℚ) : npMean [a] = a := by
  simp [npMean]

lemma npMean_replicate {n : ℕ} (hn : n ≠ 0) (a : ℚ) :
    npMean (List.replicate n a) = a := by
  simp only [npMean, List.sum_replicate, List.length_replicate, nsmul_eq_mul]
  rw [mul_comm, mul_div_assoc, div_self (show (n : ℚ) ≠ 0 by exact_mod_cast hn), mul_one]

lemma npVar_replicate {n : ℕ} (hn : n ≠ 0) (a : ℚ) (d : ℕ) :
    npVar d (List.replicate n a) = 0 := by
  simp [npVar, npMean_replicate hn, List.map_replicate]

lemma npVar_singleton (a : ℚ) (d : ℕ) : npVar d [a] = 0 := by
  simpa using npVar_replicate (n := 1) one_ne_zero a d

lemma npStd_singleton (a : ℚ) (d : ℕ) : npStd d [a] = 0 := by
  simp [npStd, npVar_singleton]

lemma npStd_replicate {n : ℕ} (hn : n ≠ 0) (a : ℚ) (d : ℕ) :
    npStd d (List.replicate n a) = 0 := by
  simp [npStd, npVar_replicate hn]

/-- C2. The stderr-lower-bound estimator maps a single sample to itself and a
batch of `n ≥ 2` equal samples to that common value: in both cases the standard
deviation (population for `M = 1`, Bessel-corrected for `M > 1`) vanishes, so
`mean - std/sqrt(M)` collapses to the mean, which is the common value. -/
theorem get_stderr_lb_spec (a : ℚ) (n : ℕ) (hn : 2 ≤ n) :
    _get_stderr_lb [a] = (a : ℝ) ∧ _get_stderr_lb (List.replicate n a) = (a : ℝ) := by
  have hn0 : n ≠ 0 := by omega
  constructor
  · simp [_get_stderr_lb, npStd_singleton, npMean_singleton]
  · simp [_get_stderr_lb, npStd_replicate hn0, npMean_replicate hn0]

/-- Witness for C2 at `a = 5`, `n = 2`. -/
theorem get_stderr_lb_spec_witness :
    2 ≤ 2 ∧
      (_get_stderr_lb [(5 : ℚ)] = ((5 : ℚ) : ℝ) ∧
        _get_stderr_lb (List.replicate 2 (5 : ℚ)) = ((5 : ℚ) : ℝ)) :=
  ⟨by decide, get_stderr_lb_spec 5 2 (by decide)⟩

/-- Number of iterations of `zip_longest(*x, fillvalue=np.nan)`: the length of
the longest sample in the batch. -/
def maxLen (x : List (List ℚ)) : ℕ := (x.map List.length).foldr max 0

/-- The non-padding entries of column `t` of `zip_longest(*x, fillvalue=nan)`:
one value from every sample whose length exceeds `t` (exhausted samples
contribute `nan`, which `np.nanmean`/`np.nanstd` skip). -/
def colAt (x : List (List ℚ)) (t : ℕ) : List ℚ := x.filterMap fun l => l[t]?

/-- `_get_stderr_lb_varyinglens(x)` from `cem.py`: per column `t` of the
zip-longest transpose, `nanmean` minus `nanstd` (with `ddof = 1` iff the count
`n` of non-`nan` entries exceeds 1) divided by `sqrt(n)`. -/
noncomputable def _get_stderr_lb_varyinglens (x : List (List ℚ)) : List ℝ :=
  (List.range (maxLen x)).map fun t =>
    (npMean (colAt x t) : ℝ) -
      npStd (if 1 < (colAt x t).length then 1 else 0) (colAt x t) /
        Real.sqrt ((colAt x t).length : ℝ)

lemma length_le_maxLen {x : List (List ℚ)} {l : List ℚ} (hl : l ∈ x) :
    l.length ≤ maxLen x := by
  induction x with
  | nil => cases hl
  | cons a x ih =>
    rcases List.mem_cons.mp hl with h | h
    · subst h; exact le_max_left _ _
    · exact le_trans (ih h) (le_max_right _ _)

lemma exists_long_of_lt_maxLen {x : List (List ℚ)} {t : ℕ} (ht : t < maxLen x) :
    ∃ l ∈ x, t < l.length := by
  induction x with
  | nil => simp [maxLen] at ht
  | cons a x ih =>
    have : t < max a.length (maxLen x) := ht
    rcases lt_max_iff.mp this with h | h
    · exact ⟨a, List.mem_cons_self a x, h⟩
    · obtain ⟨l, hl, hlen⟩ := ih h
      exact ⟨l, List.mem_cons_of_mem _ hl, hlen⟩

lemma colAt_eq_filter (x : List (List ℚ)) (t : ℕ) :
    colAt x t = (x.filter fun l => decide (t < l.length)).map fun l => l.getD t 0 := by
  induction x with
  | nil => rfl
  | cons a x ih =>
    by_cases h : t < a.length
    · have h1 : a[t]? = some a[t] := List.getElem?_eq_getElem h
      have h2 : a.getD t 0 = a[t] := List.getD_eq_getElem a 0 h
      simp [colAt, List.filterMap_cons, List.filter_cons, h1, h, h2, colAt ] at ih ⊢
      exact ih
    · have h1 : a[t]? = none := List.getElem?_eq_none (by omega)
      simp [colAt, List.filterMap_cons, List.filter_cons, h1, h] at ih ⊢
      exact ih

lemma colAt_ne_nil_of_lt_maxLen {x : List (List ℚ)} {t : ℕ} (ht : t < maxLen x) :
    colAt x t ≠ [] := by
  obtain ⟨l, hl, hlen⟩ := exists_long_of_lt_maxLen ht
  have : l[t] ∈ colAt x t :=
    List.mem_filterMap.mpr ⟨l, hl, List.getElem?_eq_getElem hlen⟩
  exact List.ne_nil_of_mem this

lemma maxLen_eq_zero_iff {x : List (List ℚ)} :
    maxLen x = 0 ↔ ∀ l ∈ x, l = [] := by
  induction x with
  | nil => simp [maxLen]
  | cons a x ih =>
    have : maxLen (a :: x) = max a.length (maxLen x) := rfl
    rw [this, Nat.max_eq_zero_iff]
    constructor
    · rintro ⟨h1, h2⟩ l hl
      rcases List.mem_cons.mp hl with h | h
      · subst h; exact List.length_eq_zero.mp h1
      · exact ih.mp h2 l h
    · intro h
      exact ⟨List.length_eq_zero.mpr (h a (List.mem_cons_self a x)),
        ih.mpr fun l hl => h l (List.mem_cons_of_mem _ hl)⟩

/-- C3. The varying-length estimator: the output has one entry per index of the
longest sample; column `t` collects exactly the values at `t` of the samples of
length `> t` (missing entries are skipped, not zero-filled); and an index
reached by a single sample yields that sample's value unchanged. -/
theorem varyinglens_spec (x : List (List ℚ)) (t : ℕ) (a : ℚ)
    (hcol : colAt x t = [a]) :
    (_get_stderr_lb_varyinglens x).length = maxLen x ∧
      (∀ s, colAt x s = (x.filter fun l => decide (s < l.length)).map fun l => l.getD s 0) ∧
      (_get_stderr_lb_varyinglens x)[t]? = some (a : ℝ) := by
  have ha : a ∈ colAt x t := by rw [hcol]; exact List.mem_singleton_self a
  obtain ⟨l, hl, hget⟩ := List.mem_filterMap.mp ha
  have hlt : t < l.length := by
    by_contra hlen
    rw [List.getElem?_eq_none (by omega)] at hget
    cases hget
  have ht : t < maxLen x := lt_of_lt_of_le hlt (length_le_maxLen hl)
  refine ⟨by simp [_get_stderr_lb_varyinglens], fun s => colAt_eq_filter x s, ?_⟩
  rw [_get_stderr_lb_varyinglens]
  rw [List.getElem?_map]
  rw [List.getElem?_range ht]
  simp [hcol, npMean_singleton, npStd_singleton]

/-- Witness for C3 on the batch `[[1, 2], [3]]` at index `t = 1`, reached only
by the first sample. -/
theorem varyinglens_spec_witness :
    colAt [[(1 : ℚ), 2], [3]] 1 = [2] ∧
      ((_get_stderr_lb_varyinglens [[(1 : ℚ), 2], [3]]).length =
          maxLen [[(1 : ℚ), 2], [3]] ∧
        (∀ s, colAt [[(1 : ℚ), 2], [3]] s =
          (([[(1 : ℚ), 2], [3]]).filter fun l => decide (s < l.length)).map
            fun l => l.getD s 0) ∧
        (_get_stderr_lb_varyinglens [[(1 : ℚ), 2], [3]])[1]? = some ((2 : ℚ) : ℝ)) :=
  ⟨by decide, varyinglens_spec [[(1 : ℚ), 2], [3]] 1 2 (by decide)⟩

/-- C10. At every column index below the longest sample's length at least one
sample contributes (so the `sqrt(n_t)` divisor is never taken over an empty
set), and the estimator's output is empty exactly when every input sample is
empty. -/
theorem varyinglens_welldefined (x : List (List ℚ)) (t : ℕ) (ht : t < maxLen x) :
    1 ≤ (colAt x t).length ∧
      (_get_stderr_lb_varyinglens x = [] ↔ ∀ l ∈ x, l = []) := by
  constructor
  · exact List.length_pos.mpr (colAt_ne_nil_of_lt_maxLen ht)
  · rw [_get_stderr_lb_varyinglens]
    rw [List.map_eq_nil_iff, List.range_eq_nil]
    exact maxLen_eq_zero_iff

/-- Witness for C10 on the batch `[[1], [2, 3]]` at index `t = 1`. -/
theorem varyinglens_welldefined_witness :
    1 < maxLen [[(1 : ℚ)], [2, 3]] ∧
      (1 ≤ (colAt [[(1 : ℚ)], [2, 3]] 1).length ∧
        (_get_stderr_lb_varyinglens [[(1 : ℚ)], [2, 3]] = [] ↔
          ∀ l ∈ [[(1 : ℚ)], [2, 3]], l = [])) :=
  ⟨by decide, varyinglens_welldefined [[(1 : ℚ)], [2, 3]] 1 (by decide)⟩

/-- `extra_var_mult = max(1.0 - itr / self.extra_decay_time, 0)` from
`CEM.train` (Python 3 true division of the iteration counter by the decay
horizon). -/
noncomputable def extra_var_mult (itr extra_decay_time : ℕ) : ℝ :=
  max (1 - (itr : ℝ) / (extra_decay_time : ℝ)) 0

/-- The decaying extra-variance term `np.square(self.extra_std) *
extra_var_mult` added to the squared distribution std. -/
noncomputable def extraVariance (extra_std : ℝ) (itr edt : ℕ) : ℝ :=
  extra_std ^ 2 * extra_var_mult itr edt

/-- `sample_std = np.sqrt(np.square(cur_std) + np.square(self.extra_std) *
extra_var_mult)` from `CEM.train` (one coordinate; the numpy expression is
elementwise). -/
noncomputable def sample_std (cur_std extra_std : ℝ) (itr edt : ℕ) : ℝ :=
  Real.sqrt (cur_std ^ 2 + extraVariance extra_std itr edt)

/-- C4. The effective sampling std is `sqrt(cur_std² + extra_std² · max(1 -
i/extra_decay_time, 0))`; the extra-variance term is non-negative, non-
increasing in the iteration index, and exactly `0` from `extra_decay_time`
onwards. -/
theorem exploration_schedule_spec (cur_std extra_std : ℝ) (edt i j : ℕ)
    (hedt : 0 < edt) (hij : i ≤ j) :
    sample_std cur_std extra_std i edt =
        Real.sqrt (cur_std ^ 2 + extra_std ^ 2 * max (1 - (i : ℝ) / (edt : ℝ)) 0) ∧
      0 ≤ extraVariance extra_std i edt ∧
      extraVariance extra_std j edt ≤ extraVariance extra_std i edt ∧
      (edt ≤ i → extraVariance extra_std i edt = 0) := by
  have hedtR : (0 : ℝ) < (edt : ℝ) := by exact_mod_cast hedt
  refine ⟨rfl, ?_, ?_, ?_⟩
  · exact mul_nonneg (sq_nonneg _) (le_max_right _ _)
  · apply mul_le_mul_of_nonneg_left _ (sq_nonneg _)
    apply max_le_max_right
    have : (i : ℝ) / (edt : ℝ) ≤ (j : ℝ) / (edt : ℝ) := by
      apply div_le_div_of_nonneg_right _ hedtR.le
      exact_mod_cast hij
    linarith
  · intro hi
    have h1 : (1 : ℝ) ≤ (i : ℝ) / (edt : ℝ) := by
      rw [le_div_iff₀ hedtR, one_mul]
      exact_mod_cast hi
    have : max (1 - (i : ℝ) / (edt : ℝ)) 0 = 0 := max_eq_right (by linarith)
    rw [extraVariance, extra_var_mult, this, mul_zero]

/-- Witness for C4 at `cur_std = 1`, `extra_std = 2`, `extra_decay_time = 3`,
iterations `i = 3 ≤ j = 5`. -/
theorem exploration_schedule_spec_witness :
    0 < 3 ∧ 3 ≤ 5 ∧
      (sample_std 1 2 3 3 =
          Real.sqrt (1 ^ 2 + 2 ^ 2 * max (1 - (3 : ℝ) / ((3 : ℕ) : ℝ)) 0) ∧
        0 ≤ extraVariance 2 3 3 ∧
        extraVariance 2 5 3 ≤ extraVariance 2 3 3 ∧
        (3 ≤ 3 → extraVariance 2 3 3 = 0)) :=
  ⟨by decide, by decide, exploration_schedule_spec 1 2 3 3 5 (by decide) (by decide)⟩

/-- Python's `int()` applied to an exact rational: truncation toward zero. -/
def pyInt (q : ℚ) : ℤ := q.num.tdiv (q.den : ℤ)

/-- `n_best = max(1, int(self.n_samples * self.best_frac))` from `CEM.train`,
computed once before the iteration loop. -/
def n_best (n_samples : ℕ) (best_frac : ℚ) : ℕ :=
  max 1 (pyInt ((n_samples : ℚ) * best_frac)).toNat

lemma pyInt_eq_floor {q : ℚ} (hq : 0 ≤ q) : pyInt q = ⌊q⌋ := by
  rw [pyInt, Int.tdiv_eq_ediv (Rat.num_nonneg.mpr hq) (by positivity), Rat.floor_def]

/-- C5. The survivor count is `max(1, ⌊n_samples · best_frac⌋)` and in
particular is at least `1` for every `n_samples ≥ 1` and `best_frac ∈ (0, 1]`,
even when the product rounds down to `0`. -/
theorem n_best_spec (n_samples : ℕ) (best_frac : ℚ) (h1 : 1 ≤ n_samples)
    (h2 : 0 < best_frac) (_h3 : best_frac ≤ 1) :
    1 ≤ n_best n_samples best_frac ∧
      n_best n_samples best_frac = max 1 (Int.toNat ⌊(n_samples : ℚ) * best_frac⌋) := by
  have hq : 0 ≤ (n_samples : ℚ) * best_frac :=
    mul_nonneg (by positivity) (le_of_lt h2)
  exact ⟨le_max_left _ _, by rw [n_best, pyInt_eq_floor hq]⟩

/-- Witness for C5 at `n_samples = 10`, `best_frac = 1/100`, where the product
`1/10` rounds down to `0` yet `n_best = 1`. -/
theorem n_best_spec_witness :
    1 ≤ 10 ∧ (0 : ℚ) < 1 / 100 ∧ (1 : ℚ) / 100 ≤ 1 ∧
      (1 ≤ n_best 10 (1 / 100) ∧
        n_best 10 (1 / 100) = max 1 (Int.toNat ⌊((10 : ℕ) : ℚ) * (1 / 100)⌋)) :=
  ⟨by decide, by norm_num, by norm_num,
    n_best_spec 10 (1 / 100) (by decide) (by norm_num) (by norm_num)⟩

/-- The contribution increment computed at the end of `_worker_rollout_policy`:
`len(path['rewards'])` of the last rollout under criterion `"samples"`, `1`
under criterion `"paths"`, and `raise NotImplementedError` (no result) for any
other tag. -/
def rolloutIncrement (criterion : String) (lastRewards : List ℚ) : Option ℕ :=
  if criterion = "samples" then some lastRewards.length
  else if criterion = "paths" then some 1
  else none

/-- C6. The rollout evaluator's increment is the last rollout's reward-sequence
length for `"samples"`, `1` for `"paths"`, and for any other criterion tag the
task fails (produces no result) instead of falling back silently. -/
theorem rollout_increment_spec (c : String) (rws : List ℚ)
    (h1 : c ≠ "samples") (h2 : c ≠ "paths") :
    rolloutIncrement "samples" rws = some rws.length ∧
      rolloutIncrement "paths" rws = some 1 ∧
      rolloutIncrement c rws = none := by
  refine ⟨rfl, rfl, ?_⟩
  rw [rolloutIncrement, if_neg h1, if_neg h2]

/-- Witness for C6 with the unrecognized tag `"steps"` and a two-step last
rollout. -/
theorem rollout_increment_spec_witness :
    "steps" ≠ "samples" ∧ "steps" ≠ "paths" ∧
      (rolloutIncrement "samples" [(1 : ℚ), 2] = some (([(1 : ℚ), 2]).length) ∧
        rolloutIncrement "paths" [(1 : ℚ), 2] = some 1 ∧
        rolloutIncrement "steps" [(1 : ℚ), 2] = none) :=
  ⟨by decide, by decide, rollout_increment_spec "steps" [1, 2] (by decide) (by decide)⟩

/-- Modelled from the spec: `discount_cumsum` from `garage.misc.special` is
imported by `cem.py` but its source is not under `src/`.  Per the spec it is
the reverse cumulative discounted sum: `returns[t] = reward[t] +
discount*returns[t+1]`, with `returns[-1] = reward[-1]`. -/
def discount_cumsum (discount : ℚ) : List ℚ → List ℚ
  | [] => []
  | r :: rest => (r + discount * (discount_cumsum discount rest).headD 0) ::
      discount_cumsum discount rest

lemma discount_cumsum_length (d : ℚ) (rs : List ℚ) :
    (discount_cumsum d rs).length = rs.length := by
  induction rs with
  | nil => rfl
  | cons r rest ih => simp [discount_cumsum, ih]

lemma discount_cumsum_getLast? (d : ℚ) (rs : List ℚ) :
    (discount_cumsum d rs).getLast? = rs.getLast? := by
  induction rs with
  | nil => rfl
  | cons r rest ih =>
    cases rest with
    | nil => simp [discount_cumsum]
    | cons s rest' =>
      have hdc : discount_cumsum d (s :: rest') ≠ [] := by
        intro hnil
        have hlen := discount_cumsum_length d (s :: rest')
        rw [hnil] at hlen
        simp at hlen
      cases hd : discount_cumsum d (s :: rest') with
      | nil => exact absurd hd hdc
      | cons a l =>
        rw [discount_cumsum, hd, List.getLast?_cons_cons, ← hd, ih,
          List.getLast?_cons_cons]

lemma discount_cumsum_rec (d : ℚ) (rs : List ℚ) (t : ℕ) (h : t + 1 < rs.length) :
    (discount_cumsum d rs).getD t 0 =
      rs.getD t 0 + d * (discount_cumsum d rs).getD (t + 1) 0 := by
  induction rs generalizing t with
  | nil => simp at h
  | cons r rest ih =>
    cases t with
    | zero =>
      have hrest : rest ≠ [] := by
        intro hr
        rw [hr] at h
        simp at h
      have hdc : discount_cumsum d rest ≠ [] := by
        intro hr
        have := discount_cumsum_length d rest
        rw [hr] at this
        exact hrest (List.length_eq_zero.mp this.symm)
      rw [discount_cumsum]
      cases hd : discount_cumsum d rest with
      | nil => exact absurd hd hdc
      | cons a l => simp [hd]
    | succ t' =>
      have h' : t' + 1 < rest.length := by simpa using h
      rw [discount_cumsum]
      simpa using ih t' h'

/-- C7. The discounted-return sequence has one entry per reward, satisfies
`returns[t] = reward[t] + discount * returns[t+1]` with the last entry equal to
the last reward, and on rewards `[1, 1, 1]` with discount `1/2` it yields
`[7/4, 3/2, 1]`. -/
theorem discount_cumsum_spec (d : ℚ) (rs : List ℚ) (t : ℕ)
    (h : t + 1 < rs.length) :
    (discount_cumsum d rs).length = rs.length ∧
      (discount_cumsum d rs).getLast? = rs.getLast? ∧
      (discount_cumsum d rs).getD t 0 =
        rs.getD t 0 + d * (discount_cumsum d rs).getD (t + 1) 0 ∧
      discount_cumsum (1 / 2) [1, 1, 1] = [7 / 4, 3 / 2, 1] := by
  refine ⟨discount_cumsum_length d rs, discount_cumsum_getLast? d rs,
    discount_cumsum_rec d rs t h, ?_⟩
  norm_num [discount_cumsum]

/-- Witness for C7 on rewards `[1, 1, 1]` with discount `1/2` at `t = 0`. -/
theorem discount_cumsum_spec_witness :
    0 + 1 < ([(1 : ℚ), 1, 1]).length ∧
      ((discount_cumsum (1 / 2) [(1 : ℚ), 1, 1]).length = ([(1 : ℚ), 1, 1]).length ∧
        (discount_cumsum (1 / 2) [(1 : ℚ), 1, 1]).getLast? = ([(1 : ℚ), 1, 1]).getLast? ∧
        (discount_cumsum (1 / 2) [(1 : ℚ), 1, 1]).getD 0 0 =
          ([(1 : ℚ), 1, 1]).getD 0 0 +
            (1 / 2) * (discount_cumsum (1 / 2) [(1 : ℚ), 1, 1]).getD (0 + 1) 0 ∧
        discount_cumsum (1 / 2) [1, 1, 1] = [7 / 4, 3 / 2, 1]) :=
  ⟨by decide, discount_cumsum_spec (1 / 2) [1, 1, 1] 0 (by decide)⟩

/-- The ranking relation behind `best_inds = (-fs).argsort()[:n_best]`: index
`i` may precede index `j` when `i`'s fitness (the first-timestep aggregated
discounted return `fs[i]`) is at least `fs[j]` — descending order, ties kept in
original order by a stable sort. -/
def fitGe (fs : List ℚ) (i j : ℕ) : Prop := fs.getD j 0 ≤ fs.getD i 0

instance fitGe.decRel (fs : List ℚ) : DecidableRel (fitGe fs) := fun i j =>
  inferInstanceAs (Decidable (fs.getD j 0 ≤ fs.getD i 0))

instance fitGe.total (fs : List ℚ) : IsTotal ℕ (fitGe fs) :=
  ⟨fun i j => le_total (fs.getD j 0) (fs.getD i 0)⟩

instance fitGe.trans (fs : List ℚ) : IsTrans ℕ (fitGe fs) :=
  ⟨fun _ _ _ h1 h2 => le_trans h2 h1⟩

/-- `(-fs).argsort()` from `CEM.train`: the indices `0, …, len(fs)-1` sorted so
that fitness values are descending. -/
def argsortDesc (fs : List ℚ) : List ℕ :=
  List.insertionSort (fitGe fs) (List.range fs.length)

/-- `best_xs = xs[best_inds]` with `best_inds = (-fs).argsort()[:n_best]`. -/
def selectBest (xs : List (List ℚ)) (fs : List ℚ) (nb : ℕ) : List (List ℚ) :=
  ((argsortDesc fs).take nb).map fun i => xs.getD i []

/-- Column `k` of a batch of parameter vectors (axis-0 slice). -/
def colVals (bxs : List (List ℚ)) (k : ℕ) : List ℚ := bxs.map fun v => v.getD k 0

/-- `best_xs.mean(axis=0)` over `K`-dimensional parameter vectors. -/
def meanVec (bxs : List (List ℚ)) (K : ℕ) : List ℚ :=
  (List.range K).map fun k => npMean (colVals bxs k)

/-- `best_xs.std(axis=0)` (numpy default `ddof=0`, population std). -/
noncomputable def stdVec (bxs : List (List ℚ)) (K : ℕ) : List ℝ :=
  (List.range K).map fun k => npStd 0 (colVals bxs k)

/-- `fs = np.array([path['returns'][0] for path in paths])`: the fitness signal
is the first element of each result's aggregated discounted-return vector. -/
def fitnessVals (returnsBatch : List (List ℚ)) : List ℚ :=
  returnsBatch.map fun r => r.getD 0 0

lemma argsortDesc_perm (fs : List ℚ) :
    (argsortDesc fs).Perm (List.range fs.length) :=
  List.perm_insertionSort (fitGe fs) (List.range fs.length)

lemma argsortDesc_pairwise (fs : List ℚ) :
    List.Pairwise (fitGe fs) (argsortDesc fs) :=
  List.sorted_insertionSort (fitGe fs) (List.range fs.length)

lemma argsortDesc_length (fs : List ℚ) :
    (argsortDesc fs).length = fs.length := by
  rw [(argsortDesc_perm fs).length_eq, List.length_range]

lemma argsortDesc_take_drop (fs : List ℚ) (nb : ℕ) :
    ∀ i ∈ (argsortDesc fs).take nb, ∀ j ∈ (argsortDesc fs).drop nb,
      fs.getD j 0 ≤ fs.getD i 0 := by
  have h := argsortDesc_pairwise fs
  rw [← List.take_append_drop nb (argsortDesc fs)] at h
  exact (List.pairwise_append.mp h).2.2

/-- `(List.range v.length).map (fun k => v.getD k d) = v`. -/
lemma map_getD_range (v : List ℚ) (dflt : ℚ) :
    (List.range v.length).map (fun k => v.getD k dflt) = v := by
  apply List.ext_getElem
  · simp
  · intro k h1 h2
    simp only [List.getElem_map, List.getElem_range]
    exact List.getD_eq_getElem v dflt h2

/-- C1. The distribution update ranks samples by the first element of their
returns vector, descending (the ranked index list is a permutation of all
indices, pairwise ordered, and every kept index beats every dropped one); on
the spec's scenario — fitness `[3,1,4,1]`, `n_best = 2`, parameter vectors
`[[1,0],[0,1],[2,2],[3,3]]` — the survivors are indices `[2, 0]`, the new mean
is `[3/2, 1]`, the new std is the population std `[1/2, 1]`, and the parameter
vector installed into the policy is `best_xs[0] = xs[2] = [2,2]`. -/
theorem cem_distribution_update_spec (fs : List ℚ) (nb : ℕ) :
    (argsortDesc fs).Perm (List.range fs.length) ∧
      List.Pairwise (fitGe fs) (argsortDesc fs) ∧
      (∀ i ∈ (argsortDesc fs).take nb, ∀ j ∈ (argsortDesc fs).drop nb,
        fs.getD j 0 ≤ fs.getD i 0) ∧
      fitnessVals [[(3 : ℚ), 9], [1], [4, 7], [1, 0]] = [3, 1, 4, 1] ∧
      (argsortDesc [(3 : ℚ), 1, 4, 1]).take 2 = [2, 0] ∧
      selectBest [[(1 : ℚ), 0], [0, 1], [2, 2], [3, 3]] [3, 1, 4, 1] 2 =
        [[2, 2], [1, 0]] ∧
      meanVec [[(2 : ℚ), 2], [1, 0]] 2 = [3 / 2, 1] ∧
      stdVec [[(2 : ℚ), 2], [1, 0]] 2 = [(1 / 2 : ℝ), 1] ∧
      (selectBest [[(1 : ℚ), 0], [0, 1], [2, 2], [3, 3]] [3, 1, 4, 1] 2).headD []
        = [2, 2] := by
  refine ⟨argsortDesc_perm fs, argsortDesc_pairwise fs, argsortDesc_take_drop fs nb,
    by decide, by decide, by decide, ?_, ?_, by decide⟩
  · have hc0 : colVals [[(2 : ℚ), 2], [1, 0]] 0 = [2, 1] := by decide
    have hc1 : colVals [[(2 : ℚ), 2], [1, 0]] 1 = [2, 0] := by decide
    rw [meanVec, show List.range 2 = [0, 1] by decide, List.map_cons, List.map_cons,
      List.map_nil, hc0, hc1]
    norm_num [npMean]
  · have hc0 : colVals [[(2 : ℚ), 2], [1, 0]] 0 = [2, 1] := by decide
    have hc1 : colVals [[(2 : ℚ), 2], [1, 0]] 1 = [2, 0] := by decide
    have hv0 : npVar 0 [(2 : ℚ), 1] = 1 / 4 := by norm_num [npVar, npMean]
    have hv1 : npVar 0 [(2 : ℚ), 0] = 1 := by norm_num [npVar, npMean]
    rw [stdVec, show List.range 2 = [0, 1] by decide, List.map_cons, List.map_cons,
      List.map_nil, hc0, hc1, npStd, npStd, hv0, hv1]
    have hs0 : Real.sqrt (((1 / 4 : ℚ) : ℝ)) = 1 / 2 := by
      rw [show ((1 / 4 : ℚ) : ℝ) = (1 / 2 : ℝ) ^ 2 by norm_num,
        Real.sqrt_sq (by norm_num)]
    have hs1 : Real.sqrt (((1 : ℚ) : ℝ)) = 1 := by
      rw [show ((1 : ℚ) : ℝ) = (1 : ℝ) by norm_num, Real.sqrt_one]
    rw [hs0, hs1]

/-- C8. With a single survivor the update degenerates gracefully: exactly one
parameter vector is selected, the new mean is that vector, the new std is the
zero vector, and a zero-variance distribution propagates — the next sampling
std reduces to the decaying exploration-noise term alone. -/
theorem cem_update_single_survivor (xs : List (List ℚ)) (fs : List ℚ)
    (v : List ℚ) (hf : fs ≠ []) :
    (selectBest xs fs 1).length = 1 ∧
      meanVec [v] v.length = v ∧
      stdVec [v] v.length = List.replicate v.length 0 ∧
      (∀ (extra_std : ℝ) (i edt : ℕ),
        sample_std 0 extra_std i edt =
          Real.sqrt (extra_std ^ 2 * extra_var_mult i edt)) := by
  refine ⟨?_, ?_, ?_, ?_⟩
  · rw [selectBest, List.length_map, List.length_take, argsortDesc_length]
    exact min_eq_left (List.length_pos.mpr hf)
  · rw [meanVec]
    simp only [colVals, List.map_cons, List.map_nil, npMean_singleton]
    exact map_getD_range v 0
  · rw [stdVec]
    simp only [colVals, List.map_cons, List.map_nil, npStd_singleton]
    simp [List.eq_replicate_iff]
  · intro extra_std i edt
    norm_num [sample_std, extraVariance]

/-- Witness for C8 with batch `xs = [[1, 2]]`, fitness `fs = [5]`, and the
selected vector `v = [3, 4]`. -/
theorem cem_update_single_survivor_witness :
    ([(5 : ℚ)] ≠ []) ∧
      ((selectBest [[(1 : ℚ), 2]] [(5 : ℚ)] 1).length = 1 ∧
        meanVec [[(3 : ℚ), 4]] ([(3 : ℚ), 4]).length = [(3 : ℚ), 4] ∧
        stdVec [[(3 : ℚ), 4]] ([(3 : ℚ), 4]).length =
          List.replicate ([(3 : ℚ), 4]).length 0 ∧
        (∀ (extra_std : ℝ) (i edt : ℕ),
          sample_std 0 extra_std i edt =
            Real.sqrt (extra_std ^ 2 * extra_var_mult i edt))) :=
  ⟨by decide, cem_update_single_survivor [[(1 : ℚ), 2]] [(5 : ℚ)] [3, 4] (by decide)⟩

/-- The per-iteration dispatch decision in `CEM.train`: with `batch_size` unset
the criterion is `"paths"` and the threshold `n_samples`; with `batch_size`
set the criterion is `"samples"` and the threshold `batch_size`. -/
def dispatchPlan (batch_size : Option ℕ) (n_samples : ℕ) : String × ℕ :=
  match batch_size with
  | none => ("paths", n_samples)
  | some b => ("samples", b)

/-- The per-iteration survivor index lists produced by `CEM.train`, given the
fitness values each iteration's sampling yields (the external randomness).
`n_best` is a function of the constructor's `n_samples` and `best_frac` only
(computed before the loop at line 118) and is applied unchanged at every
iteration; `batch_size` influences only dispatch, never the selection. -/
def trainSurvivorInds (n_samples : ℕ) (best_frac : ℚ) (_batch_size : Option ℕ)
    (fsPerItr : List (List ℚ)) : List (List ℕ) :=
  fsPerItr.map fun fs => (argsortDesc fs).take (n_best n_samples best_frac)

/-- C9. At every iteration `i` the survivor index list is the top
`n_best n_samples best_frac` of that iteration's ranking — the same survivor
count, derived from `n_samples`, at all iterations — even with `batch_size`
set, in which case dispatch uses the step budget (`"samples"`, `batch_size`)
while selection is unchanged from the `batch_size = None` run. -/
theorem n_best_fixed_across_iterations (ns : ℕ) (bf : ℚ) (bs : ℕ)
    (fsPerItr : List (List ℚ)) (i : ℕ) (hi : i < fsPerItr.length) :
    (trainSurvivorInds ns bf (some bs) fsPerItr).getD i [] =
        (argsortDesc (fsPerItr.getD i [])).take (n_best ns bf) ∧
      dispatchPlan (some bs) ns = ("samples", bs) ∧
      dispatchPlan none ns = ("paths", ns) ∧
      trainSurvivorInds ns bf (some bs) fsPerItr =
        trainSurvivorInds ns bf none fsPerItr := by
  refine ⟨?_, rfl, rfl, rfl⟩
  rw [trainSurvivorInds]
  rw [List.getD_eq_getElem _ _ (by simpa using hi)]
  rw [List.getElem_map]
  rw [List.getD_eq_getElem _ _ hi]

/-- Witness for C9 with `n_samples = 4`, `best_frac = 1/2`, `batch_size = 7`,
one iteration of fitness values `[3, 1, 4, 1]`. -/
theorem n_best_fixed_across_iterations_witness :
    0 < ([[(3 : ℚ), 1, 4, 1]]).length ∧
      ((trainSurvivorInds 4 (1 / 2) (some 7) [[(3 : ℚ), 1, 4, 1]]).getD 0 [] =
          (argsortDesc (([[(3 : ℚ), 1, 4, 1]]).getD 0 [])).take (n_best 4 (1 / 2)) ∧
        dispatchPlan (some 7) 4 = ("samples", 7) ∧
        dispatchPlan none 4 = ("paths", 4) ∧
        trainSurvivorInds 4 (1 / 2) (some 7) [[(3 : ℚ), 1, 4, 1]] =
          trainSurvivorInds 4 (1 / 2) none [[(3 : ℚ), 1, 4, 1]]) :=
  ⟨by decide,
    n_best_fixed_across_iterations 4 (1 / 2) 7 [[(3 : ℚ), 1, 4, 1]] 0 (by decide)⟩
